import Mathlib

/-!
Shallow embedding of the seastar future-utility combinators from
`src/include/seastar/core/future-util.hh`, together with proofs of the
specification claims about them.

Modelling conventions, used throughout:

* An exception is a value of the inductive `Exn`; `Exn.timed_out` models the
  `timed_out_error` produced by `default_timeout_exception_factory`, and
  `Exn.user n` models any user exception.
* A `future<>` handed to a combinator is modelled as a `SubF`: the discrete
  time `resTime` at which it becomes available (`0` means it is already
  available when the combinator obtains it) and `exn`, its outcome
  (`none` = ready-successful, `some e` = ready-failed with exception `e`).
  A callable that throws synchronously is reified by `futurize_apply` into an
  available failed future, i.e. a `SubF` with `resTime = 0` and `exn = some e`.
* Time is a discrete, totally ordered clock.  A continuation installed on a
  future with resolution time `t` runs at time `t`; a future that is
  available is consumed immediately.  All combinators here run on a single
  reactor thread, so at any moment exactly one continuation runs.
* `need_preempt()` is scheduler state outside the combinators; it is modelled
  as an oracle `pre : Nat → Bool` indexed by the number of loop iterations
  performed so far, consulted exactly where the source consults
  `need_preempt()`.
* Heap allocations of internal combinator state (`new parallel_for_each_state`,
  `std::make_unique<repeater>`, `new when_all_state`, the continuation
  allocated by `then()`, `std::make_unique<promise>` in `with_timeout`) are
  counted in an `allocs` field.  Placement-`new` into the preallocated
  aligned storage of `when_all_state` is not a heap allocation.
-/

namespace Seastar

/-- Exceptions.  `timed_out` is the `timed_out_error` of the default timeout
exception factory; `user n` stands for an arbitrary user exception. -/
inductive Exn where
  | timed_out
  | user (n : Nat)
deriving DecidableEq

/-- A `future<>` as obtained by a combinator: the time at which it becomes
available (`0` = already available) and its outcome (`none` = succeeds,
`some e` = fails with `e`). -/
structure SubF where
  resTime : Nat
  exn : Option Exn
deriving DecidableEq

/-! ### parallel_for_each (future-util.hh lines 113-235)

`parallel_for_each(begin, end, func)` walks the range, obtaining one future
per element.  Available futures are consumed on the spot (a failure is
recorded in the local `ex`, overwriting any earlier one); non-available
futures are pushed into the `_incomplete` vector of a lazily allocated
`parallel_for_each_state`.  If no state was allocated the result is
immediate; otherwise `wait_for_one` processes `_incomplete` from the back,
absorbing exceptions of futures that are available by now and waiting for
the first one that is not. -/

/-- The element walk of `parallel_for_each` (lines 204-218): `ex` is the
last immediately-observed exception, `inc` the `_incomplete` vector (in push
order). -/
def pfeWalk : List SubF → Option Exn → List SubF → Option Exn × List SubF
  | [], ex, inc => (ex, inc)
  | f :: rest, ex, inc =>
    if f.resTime = 0 then
      pfeWalk rest (match f.exn with | some e => some e | none => ex) inc
    else
      pfeWalk rest ex (inc ++ [f])

/-- `parallel_for_each_state::wait_for_one` (lines 122-158), processing the
reversed `_incomplete` vector (back first) starting at time `t`: a future
available at the current time is skipped, absorbing its exception; otherwise
the state installs itself as its continuation and wakes at its resolution
time, absorbing its exception in `run_and_dispose`.  In both cases the clock
and the captured exception advance the same way. -/
def wait_for_one : List SubF → Nat → Option Exn → Nat × Option Exn
  | [], t, ex => (t, ex)
  | f :: rest, t, ex =>
    wait_for_one rest (max t f.resTime) (match f.exn with | some e => some e | none => ex)

/-- The observable result of `parallel_for_each`: the time at which the
returned future resolves, its outcome, and how many heap states were
allocated. -/
structure PFERes where
  time : Nat
  exn : Option Exn
  allocs : Nat
deriving DecidableEq

/-- `parallel_for_each` (lines 197-235): walk the range; if every future was
available the result is immediate with the last observed exception (if any);
otherwise a single `parallel_for_each_state` is allocated and drained by
`wait_for_one`. -/
def parallel_for_each (subs : List SubF) : PFERes :=
  let w := pfeWalk subs none []
  match w.2 with
  | [] => ⟨0, w.1, 0⟩
  | _ :: _ =>
    let r := wait_for_one w.2.reverse 0 w.1
    ⟨r.1, r.2, 1⟩

theorem wait_for_one_time_le (l : List SubF) (t : Nat) (ex : Option Exn) :
    t ≤ (wait_for_one l t ex).1 := by
  induction l generalizing t ex with
  | nil => exact Nat.le_refl t
  | cons f rest ih =>
    exact Nat.le_trans (Nat.le_max_left t f.resTime) (ih _ _)

theorem wait_for_one_time_mem (l : List SubF) (f : SubF) (hf : f ∈ l) :
    ∀ (t : Nat) (ex : Option Exn), f.resTime ≤ (wait_for_one l t ex).1 := by
  induction l with
  | nil => cases hf
  | cons g rest ih =>
    intro t ex
    rcases List.mem_cons.mp hf with h | h
    · subst h
      exact Nat.le_trans (Nat.le_max_right t f.resTime) (wait_for_one_time_le _ _ _)
    · exact ih h _ _

theorem wait_for_one_exn_isSome (l : List SubF) :
    ∀ (t : Nat) (ex : Option Exn), ex.isSome → ((wait_for_one l t ex).2).isSome := by
  induction l with
  | nil => exact fun _ _ hex => hex
  | cons f rest ih =>
    intro t ex hex
    cases hf : f.exn with
    | some e => simpa [wait_for_one, hf] using ih _ (some e) rfl
    | none => simpa [wait_for_one, hf] using ih _ _ hex

theorem wait_for_one_fail_mem (l : List SubF) (f : SubF) (hf : f ∈ l)
    (hfail : f.exn.isSome) :
    ∀ (t : Nat) (ex : Option Exn), ((wait_for_one l t ex).2).isSome := by
  induction l with
  | nil => cases hf
  | cons g rest ih =>
    intro t ex
    rcases List.mem_cons.mp hf with h | h
    · subst h
      cases hfe : f.exn with
      | some e => simpa [wait_for_one, hfe] using wait_for_one_exn_isSome rest _ (some e) rfl
      | none => simp [hfe] at hfail
    · exact ih h _ _

theorem wait_for_one_exn_mem (l : List SubF) (t : Nat) (ex : Option Exn)
    (e : Exn) (h : (wait_for_one l t ex).2 = some e) :
    (some e) ∈ l.map SubF.exn ∨ ex = some e := by
  induction l generalizing t ex with
  | nil => exact Or.inr h
  | cons f rest ih =>
    cases hf : f.exn with
    | some e' =>
      rw [wait_for_one, hf] at h
      rcases ih _ _ h with hm | hm
      · exact Or.inl (List.mem_cons_of_mem _ hm)
      · exact Or.inl (by simp [hf, hm.symm])
    | none =>
      rw [wait_for_one, hf] at h
      rcases ih _ _ h with hm | hm
      · exact Or.inl (List.mem_cons_of_mem _ hm)
      · exact Or.inr hm

theorem pfeWalk_inc_mem (l : List SubF) (g : SubF) :
    ∀ (ex : Option Exn) (inc : List SubF), g ∈ inc → g ∈ (pfeWalk l ex inc).2 := by
  induction l with
  | nil => exact fun _ _ h => h
  | cons f rest ih =>
    intro ex inc h
    by_cases hf : f.resTime = 0
    · rw [pfeWalk, if_pos hf]; exact ih _ _ h
    · rw [pfeWalk, if_neg hf]; exact ih _ _ (List.mem_append.mpr (Or.inl h))

theorem pfeWalk_deferred_mem (l : List SubF) (f : SubF) (hf : f ∈ l)
    (hrt : f.resTime ≠ 0) :
    ∀ (ex : Option Exn) (inc : List SubF), f ∈ (pfeWalk l ex inc).2 := by
  induction l with
  | nil => cases hf
  | cons g rest ih =>
    intro ex inc
    rcases List.mem_cons.mp hf with h | h
    · subst h
      rw [pfeWalk, if_neg hrt]
      exact pfeWalk_inc_mem rest f _ _ (by simp)
    · by_cases hg : g.resTime = 0 <;> simp only [pfeWalk, hg, if_pos, if_neg, ite_true,
        ite_false, reduceIte] <;> exact ih h _ _

theorem pfeWalk_exn_isSome (l : List SubF) :
    ∀ (ex : Option Exn) (inc : List SubF), ex.isSome →
      ((pfeWalk l ex inc).1).isSome := by
  induction l with
  | nil => exact fun _ _ hex => hex
  | cons g rest ih =>
    intro ex inc hex
    by_cases hg : g.resTime = 0
    · rw [pfeWalk, if_pos hg]
      cases hge : g.exn with
      | some e => exact ih _ _ rfl
      | none => exact ih _ _ hex
    · rw [pfeWalk, if_neg hg]
      exact ih _ _ hex

theorem pfeWalk_ready_fail (l : List SubF) (f : SubF) (hf : f ∈ l)
    (hrt : f.resTime = 0) (hfail : f.exn.isSome) :
    ∀ (ex : Option Exn) (inc : List SubF), ((pfeWalk l ex inc).1).isSome := by
  induction l with
  | nil => cases hf
  | cons g rest ih =>
    intro ex inc
    rcases List.mem_cons.mp hf with h | h
    · subst h
      rw [pfeWalk, if_pos hrt]
      cases hfe : f.exn with
      | some e => exact pfeWalk_exn_isSome rest _ _ rfl
      | none => simp [hfe] at hfail
    · by_cases hg : g.resTime = 0
      · rw [pfeWalk, if_pos hg]; exact ih h _ _
      · rw [pfeWalk, if_neg hg]; exact ih h _ _

theorem pfeWalk_exn_from (l : List SubF) :
    ∀ (ex : Option Exn) (inc : List SubF) (e : Exn),
      (pfeWalk l ex inc).1 = some e →
      (some e) ∈ l.map SubF.exn ∨ ex = some e := by
  induction l with
  | nil => exact fun _ _ _ h => Or.inr h
  | cons g rest ih =>
    intro ex inc e h
    by_cases hg : g.resTime = 0
    · rw [pfeWalk, if_pos hg] at h
      cases hge : g.exn with
      | some e' =>
        rw [hge] at h
        rcases ih _ _ _ h with hm | hm
        · exact Or.inl (List.mem_cons_of_mem _ hm)
        · exact Or.inl (by simp [hge, hm.symm])
      | none =>
        rw [hge] at h
        rcases ih _ _ _ h with hm | hm
        · exact Or.inl (List.mem_cons_of_mem _ hm)
        · exact Or.inr hm
    · rw [pfeWalk, if_neg hg] at h
      rcases ih _ _ _ h with hm | hm
      · exact Or.inl (List.mem_cons_of_mem _ hm)
      · exact Or.inr hm

theorem pfe_result_cases (subs : List SubF) (f : SubF) (hf : f ∈ subs) :
    f.resTime = 0 ∨ f ∈ (pfeWalk subs none []).2 := by
  by_cases h0 : f.resTime = 0
  · exact Or.inl h0
  · exact Or.inr (pfeWalk_deferred_mem subs f hf h0 none [])

theorem pfeWalk_inc_from (l : List SubF) :
    ∀ (ex : Option Exn) (inc : List SubF) (g : SubF),
      g ∈ (pfeWalk l ex inc).2 → g ∈ inc ∨ g ∈ l := by
  induction l with
  | nil => exact fun _ _ _ h => Or.inl h
  | cons f rest ih =>
    intro ex inc g h
    by_cases hf : f.resTime = 0
    · rw [pfeWalk, if_pos hf] at h
      rcases ih _ _ _ h with hm | hm
      · exact Or.inl hm
      · exact Or.inr (List.mem_cons_of_mem _ hm)
    · rw [pfeWalk, if_neg hf] at h
      rcases ih _ _ _ h with hm | hm
      · rcases List.mem_append.mp hm with hm' | hm'
        · exact Or.inl hm'
        · exact Or.inr (by simp at hm'; simp [hm'])
      · exact Or.inr (List.mem_cons_of_mem _ hm)

/-- Claim C1: the future returned by `parallel_for_each` does not resolve
before every future produced by an invocation of the action is ready (all
sub-futures, including those still pending when a failure was observed, are
awaited); if at least one invocation fails — synchronous throws being
reified into ready-failed futures by `futurize_apply` — the returned future
fails, and the single exception it carries is one of the exceptions observed
among the sub-futures. -/
theorem parallel_for_each_spec (subs : List SubF) :
    (∀ f ∈ subs, f.resTime ≤ (parallel_for_each subs).time) ∧
    ((∃ f ∈ subs, f.exn.isSome) → ((parallel_for_each subs).exn).isSome) ∧
    (∀ e, (parallel_for_each subs).exn = some e → (some e) ∈ subs.map SubF.exn) := by
  rcases hw : (pfeWalk subs none []).2 with _ | ⟨a, l⟩
  · refine ⟨?_, ?_, ?_⟩
    · intro f hf
      rcases pfe_result_cases subs f hf with h0 | hmem
      · simp [parallel_for_each, hw, h0]
      · rw [hw] at hmem; cases hmem
    · rintro ⟨f, hf, hfail⟩
      rcases pfe_result_cases subs f hf with h0 | hmem
      · simpa [parallel_for_each, hw] using pfeWalk_ready_fail subs f hf h0 hfail none []
      · rw [hw] at hmem; cases hmem
    · intro e he
      simp only [parallel_for_each, hw] at he
      rcases pfeWalk_exn_from subs none [] e he with hm | hm
      · exact hm
      · cases hm
  · refine ⟨?_, ?_, ?_⟩
    · intro f hf
      rcases pfe_result_cases subs f hf with h0 | hmem
      · simp [parallel_for_each, hw, h0]
      · rw [hw] at hmem
        simpa [parallel_for_each, hw] using
          wait_for_one_time_mem (a :: l).reverse f (List.mem_reverse.mpr hmem) 0
            (pfeWalk subs none []).1
    · rintro ⟨f, hf, hfail⟩
      rcases pfe_result_cases subs f hf with h0 | hmem
      · have hw1 : ((pfeWalk subs none []).1).isSome :=
          pfeWalk_ready_fail subs f hf h0 hfail none []
        simpa [parallel_for_each, hw] using
          wait_for_one_exn_isSome (a :: l).reverse 0 _ hw1
      · rw [hw] at hmem
        simpa [parallel_for_each, hw] using
          wait_for_one_fail_mem (a :: l).reverse f (List.mem_reverse.mpr hmem) hfail 0
            (pfeWalk subs none []).1
    · intro e he
      simp only [parallel_for_each, hw] at he
      rcases wait_for_one_exn_mem (a :: l).reverse 0 (pfeWalk subs none []).1 e he
        with hm | hm
      · rcases List.mem_map.mp hm with ⟨g, hg, hge⟩
        have hg2 : g ∈ (pfeWalk subs none []).2 := by
          rw [hw]; exact List.mem_reverse.mp hg
        rcases pfeWalk_inc_from subs none [] g hg2 with h | h
        · cases h
        · exact List.mem_map.mpr ⟨g, h, hge⟩
      · rcases pfeWalk_exn_from subs none [] e hm with h | h
        · exact h
        · cases h

/-- Witness for claim C1 at a concrete input: two sub-futures, the first
resolving at time 3 successfully, the second already failed; the result
resolves no earlier than time 3, and it fails with the observed exception. -/
theorem parallel_for_each_spec_witness :
    (∀ f ∈ [(⟨3, none⟩ : SubF), ⟨0, some (.user 7)⟩],
        f.resTime ≤ (parallel_for_each [⟨3, none⟩, ⟨0, some (.user 7)⟩]).time) ∧
    ((parallel_for_each [⟨3, none⟩, ⟨0, some (.user 7)⟩]).exn).isSome := by
  refine ⟨(parallel_for_each_spec _).1, ?_⟩
  exact (parallel_for_each_spec _).2.1 ⟨⟨0, some (.user 7)⟩, by decide, by decide⟩

/-! ### repeat (future-util.hh lines 269-386)

`repeat(action)` runs a synchronous fast path: invoke the action; if the
returned `future<stop_iteration>` is available with `yes`, return a ready
future; with `no`, loop unless `need_preempt()` is true, in which case a
heap `repeater` seeded with `no` is allocated and scheduled.  If the future
is not available, a heap `repeater` is allocated and installed as its
continuation.  `repeater::run_and_dispose` replays the same loop, reusing
the same heap object on later suspensions and preemptions.  `f.get0()` on a
ready-failed future throws; the surrounding `try` turns that (and any
synchronous throw of the action) into a failure of the returned future.

The action is modelled by the trace of its successive invocation results. -/

/-- The outcome of a ready future: a value or an exception. -/
inductive Res (α : Type) where
  | error (e : Exn)
  | ok (v : α)
deriving DecidableEq

/-- The result of one action invocation: a synchronous throw, or a future
available at `resTime` (`0` = immediately) holding either an exception or a
value of `α` (`Bool` plays `stop_iteration`, `true` = `yes`). -/
inductive ARes (α : Type) where
  | throws (e : Exn)
  | ret (resTime : Nat) (res : Res α)
deriving DecidableEq

/-- Whether an invocation result is available at the moment of invocation
(a synchronous throw is reified immediately). -/
def ARes.ready {α : Type} : ARes α → Bool
  | .throws _ => true
  | .ret rt _ => rt = 0

/-- Observable result of `repeat`: outcome of the returned future, number of
action invocations performed, heap allocations, whether the returned future
was already ready when `repeat` returned to its caller, and the lengths
(in invocations) of the maximal synchronous runs, each run being ended by a
preemption trip, a non-available action future, or loop termination. -/
structure RepeatRes where
  out : Res Unit
  invocations : Nat
  allocs : Nat
  immediate : Bool
  bursts : List Nat
deriving DecidableEq

/-- One unrolling of the `repeat` loop (both the fast path of `repeat`,
lines 359-385, and `repeater::run_and_dispose`, lines 281-311; the iteration
logic is identical, only allocation differs).  `inv` counts invocations so
far, `al` heap allocations, `burst` the length of the current synchronous
run, `bursts` the completed runs, and `imm` whether we are still inside the
original synchronous call (`true`) or running from a heap `repeater`
(`false`).  `pre k` is the value of `need_preempt()` consulted after
iteration `k`.  `none` means the trace ended before the loop did. -/
def repeatGo (pre : Nat → Bool) :
    List (ARes Bool) → Nat → Nat → Nat → List Nat → Bool → Option RepeatRes
  | [], _, _, _, _, _ => none
  | .throws e :: _, inv, al, burst, bursts, imm =>
    some ⟨.error e, inv + 1, al, imm, bursts ++ [burst + 1]⟩
  | .ret rt (.error e) :: _, inv, al, burst, bursts, imm =>
    if rt = 0 then
      some ⟨.error e, inv + 1, al, imm, bursts ++ [burst + 1]⟩
    else
      some ⟨.error e, inv + 1, al + (if imm then 1 else 0), false, bursts ++ [burst + 1]⟩
  | .ret rt (.ok true) :: _, inv, al, burst, bursts, imm =>
    if rt = 0 then
      some ⟨.ok (), inv + 1, al, imm, bursts ++ [burst + 1]⟩
    else
      some ⟨.ok (), inv + 1, al + (if imm then 1 else 0), false, bursts ++ [burst + 1]⟩
  | .ret rt (.ok false) :: rest, inv, al, burst, bursts, imm =>
    if rt = 0 then
      if pre inv then
        repeatGo pre rest (inv + 1) (al + (if imm then 1 else 0)) 0
          (bursts ++ [burst + 1]) false
      else
        repeatGo pre rest (inv + 1) al (burst + 1) bursts imm
    else
      repeatGo pre rest (inv + 1) (al + (if imm then 1 else 0)) 0
        (bursts ++ [burst + 1]) false

/-- `repeat(action)` over the trace of action results. -/
def repeat_model (pre : Nat → Bool) (trace : List (ARes Bool)) : Option RepeatRes :=
  repeatGo pre trace 0 0 0 [] true

/-- Skipping a prefix of ready-or-deferred `no` results: `repeat` keeps
iterating, whatever the preemption oracle does. -/
theorem repeatGo_skip (pre : Nat → Bool) (pfx : List (ARes Bool))
    (hpfx : ∀ a ∈ pfx, ∃ rt, a = .ret rt (.ok false)) :
    ∀ (tail : List (ARes Bool)) (inv al burst : Nat) (bursts : List Nat) (imm : Bool),
      ∃ al2 burst2 bursts2 imm2,
        repeatGo pre (pfx ++ tail) inv al burst bursts imm
          = repeatGo pre tail (inv + pfx.length) al2 burst2 bursts2 imm2 := by
  induction pfx with
  | nil => exact fun tail inv al burst bursts imm => ⟨al, burst, bursts, imm, by simp⟩
  | cons a pfx' ih =>
    intro tail inv al burst bursts imm
    rcases hpfx a (List.mem_cons_self a pfx') with ⟨rt, rfl⟩
    have hpfx' : ∀ a ∈ pfx', ∃ rt, a = .ret rt (.ok false) :=
      fun a ha => hpfx a (List.mem_cons_of_mem _ ha)
    have ihx := ih hpfx'
    by_cases hrt : rt = 0
    · by_cases hp : pre inv
      · rcases ihx tail (inv + 1) (al + (if imm then 1 else 0)) 0
            (bursts ++ [burst + 1]) false with ⟨a2, b2, c2, d2, heq⟩
        refine ⟨a2, b2, c2, d2, ?_⟩
        rw [List.cons_append, repeatGo, if_pos hrt, if_pos hp, heq]
        congr 1
        simp [Nat.add_comm, Nat.add_assoc, Nat.add_left_comm]
      · rcases ihx tail (inv + 1) al (burst + 1) bursts imm with ⟨a2, b2, c2, d2, heq⟩
        refine ⟨a2, b2, c2, d2, ?_⟩
        rw [List.cons_append, repeatGo, if_pos hrt, if_neg hp, heq]
        congr 1
        simp [Nat.add_comm, Nat.add_assoc, Nat.add_left_comm]
    · rcases ihx tail (inv + 1) (al + (if imm then 1 else 0)) 0
          (bursts ++ [burst + 1]) false with ⟨a2, b2, c2, d2, heq⟩
      refine ⟨a2, b2, c2, d2, ?_⟩
      rw [List.cons_append, repeatGo, if_neg hrt, heq]
      congr 1
      simp [Nat.add_comm, Nat.add_assoc, Nat.add_left_comm]

/-- Every invocation of the action belongs to exactly one synchronous run:
the burst lengths recorded by `repeatGo` sum to the invocation count. -/
theorem repeatGo_sum (pre : Nat → Bool) :
    ∀ (trace : List (ARes Bool)) (inv al burst : Nat) (bursts : List Nat) (imm : Bool)
      (r : RepeatRes), repeatGo pre trace inv al burst bursts imm = some r →
      r.bursts.sum + inv = bursts.sum + burst + r.invocations := by
  intro trace
  induction trace with
  | nil => intro inv al burst bursts imm r h; simp [repeatGo] at h
  | cons a rest ih =>
    intro inv al burst bursts imm r h
    cases a with
    | throws e =>
      rw [repeatGo] at h
      cases h
      simp [List.sum_append]
      omega
    | ret rt res =>
      cases res with
      | error e =>
        rw [repeatGo] at h
        split at h <;> (cases h; simp [List.sum_append]; omega)
      | ok v =>
        cases v with
        | true =>
          rw [repeatGo] at h
          split at h <;> (cases h; simp [List.sum_append]; omega)
        | false =>
          rw [repeatGo] at h
          split at h
          · split at h
            · have := ih _ _ _ _ _ _ h
              simp [List.sum_append] at this ⊢
              omega
            · have := ih _ _ _ _ _ _ h
              omega
          · have := ih _ _ _ _ _ _ h
            simp [List.sum_append] at this ⊢
            omega

/-- If `need_preempt()` is true at every check, no two action invocations
run in the same synchronous burst: every burst has length 1. -/
theorem repeatGo_preempt_bursts (pre : Nat → Bool) (hpre : ∀ i, pre i = true) :
    ∀ (trace : List (ARes Bool)) (inv al : Nat) (bursts : List Nat) (imm : Bool)
      (r : RepeatRes) (_hbs : ∀ b ∈ bursts, b = 1),
      repeatGo pre trace inv al 0 bursts imm = some r → ∀ b ∈ r.bursts, b = 1 := by
  intro trace
  induction trace with
  | nil => intro inv al bursts imm r hbs h; simp [repeatGo] at h
  | cons a rest ih =>
    intro inv al bursts imm r hbs h
    have hone : ∀ b ∈ bursts ++ [0 + 1], b = 1 := by
      intro b hb
      rcases List.mem_append.mp hb with hb | hb
      · exact hbs b hb
      · simpa using hb
    cases a with
    | throws e =>
      rw [repeatGo] at h
      cases h
      exact hone
    | ret rt res =>
      cases res with
      | error e =>
        rw [repeatGo] at h
        split at h <;> (cases h; exact hone)
      | ok v =>
        cases v with
        | true =>
          rw [repeatGo] at h
          split at h <;> (cases h; exact hone)
        | false =>
          rw [repeatGo] at h
          split at h
          · rw [hpre inv] at h
            simp only [if_true] at h
            exact ih _ _ _ _ _ hone h
          · exact ih _ _ _ _ _ hone h

/-- If the synchronous run is ever interrupted (two or more bursts), the
returned future was not ready when `repeat` returned to its caller. -/
theorem repeatGo_not_immediate (pre : Nat → Bool) :
    ∀ (trace : List (ARes Bool)) (inv al burst : Nat) (bursts : List Nat) (imm : Bool)
      (r : RepeatRes) (_himm : bursts = [] ∨ imm = false),
      repeatGo pre trace inv al burst bursts imm = some r →
      2 ≤ r.bursts.length → r.immediate = false := by
  intro trace
  induction trace with
  | nil => intro inv al burst bursts imm r himm h; simp [repeatGo] at h
  | cons a rest ih =>
    intro inv al burst bursts imm r himm h hlen
    cases a with
    | throws e =>
      rw [repeatGo] at h
      cases h
      simp at hlen ⊢
      rcases himm with h0 | h0
      · simp [h0] at hlen
      · exact h0
    | ret rt res =>
      cases res with
      | error e =>
        rw [repeatGo] at h
        split at h
        · cases h
          simp at hlen ⊢
          rcases himm with h0 | h0
          · simp [h0] at hlen
          · exact h0
        · cases h
          rfl
      | ok v =>
        cases v with
        | true =>
          rw [repeatGo] at h
          split at h
          · cases h
            simp at hlen ⊢
            rcases himm with h0 | h0
            · simp [h0] at hlen
            · exact h0
          · cases h
            rfl
        | false =>
          rw [repeatGo] at h
          split at h
          · split at h
            · exact ih _ _ _ _ _ _ (Or.inr rfl) h hlen
            · exact ih _ _ _ _ _ _ himm h hlen
          · exact ih _ _ _ _ _ _ (Or.inr rfl) h hlen

/-- Claim C5: `repeat` resolves ready-successful exactly when an invocation
yields `stop_iteration::yes` after earlier invocations all yielded `no`
(so an action counting to 2 is invoked exactly twice); while only `no`
results have been observed the returned future is not resolved; a
synchronous throw or a failed action future fails the returned future with
that same exception and the action is not invoked again (the trace beyond
the failing invocation is arbitrary and unused). -/
theorem repeat_spec (pre : Nat → Bool) (pfx rest : List (ARes Bool))
    (hpfx : ∀ a ∈ pfx, ∃ rt, a = .ret rt (.ok false)) :
    (∀ rt, ∃ al imm bursts, repeat_model pre (pfx ++ .ret rt (.ok true) :: rest)
        = some ⟨.ok (), pfx.length + 1, al, imm, bursts⟩) ∧
    (repeat_model pre pfx = none) ∧
    (∀ e, ∃ al imm bursts, repeat_model pre (pfx ++ .throws e :: rest)
        = some ⟨.error e, pfx.length + 1, al, imm, bursts⟩) ∧
    (∀ rt e, ∃ al imm bursts, repeat_model pre (pfx ++ .ret rt (.error e) :: rest)
        = some ⟨.error e, pfx.length + 1, al, imm, bursts⟩) := by
  refine ⟨?_, ?_, ?_, ?_⟩
  · intro rt
    rcases repeatGo_skip pre pfx hpfx (.ret rt (.ok true) :: rest) 0 0 0 [] true
      with ⟨al2, b2, c2, d2, heq⟩
    rw [repeat_model, heq, repeatGo]
    by_cases hrt : rt = 0
    · exact ⟨al2, d2, c2 ++ [b2 + 1], by rw [if_pos hrt]; simp [Nat.add_comm]⟩
    · exact ⟨al2 + (if d2 then 1 else 0), false, c2 ++ [b2 + 1],
        by rw [if_neg hrt]; simp [Nat.add_comm]⟩
  · rcases repeatGo_skip pre pfx hpfx [] 0 0 0 [] true with ⟨al2, b2, c2, d2, heq⟩
    rw [List.append_nil] at heq
    rw [repeat_model, heq]
    rfl
  · intro e
    rcases repeatGo_skip pre pfx hpfx (.throws e :: rest) 0 0 0 [] true
      with ⟨al2, b2, c2, d2, heq⟩
    rw [repeat_model, heq, repeatGo]
    exact ⟨al2, d2, c2 ++ [b2 + 1], by simp [Nat.add_comm]⟩
  · intro rt e
    rcases repeatGo_skip pre pfx hpfx (.ret rt (.error e) :: rest) 0 0 0 [] true
      with ⟨al2, b2, c2, d2, heq⟩
    rw [repeat_model, heq, repeatGo]
    by_cases hrt : rt = 0
    · exact ⟨al2, d2, c2 ++ [b2 + 1], by rw [if_pos hrt]; simp [Nat.add_comm]⟩
    · exact ⟨al2 + (if d2 then 1 else 0), false, c2 ++ [b2 + 1],
        by rw [if_neg hrt]; simp [Nat.add_comm]⟩

/-- Witness for claim C5: the action of the spec's scenario 3 — a counter is
incremented each call and `yes` is returned once it reaches 2 — gives the
trace `[no, yes]`: the loop resolves successfully after exactly 2
invocations, so the counter ends at 2; and an action throwing on its first
call gives a future failed with that exception after 1 invocation. -/
theorem repeat_spec_witness :
    (∃ al imm bursts, repeat_model (fun _ => false)
        ([.ret 0 (.ok false)] ++ .ret 0 (.ok true) :: [])
        = some ⟨.ok (), 2, al, imm, bursts⟩) ∧
    (∃ al imm bursts, repeat_model (fun _ => false) ([] ++ .throws (.user 5) :: [])
        = some ⟨.error (.user 5), 1, al, imm, bursts⟩) := by
  constructor
  · exact (repeat_spec (fun _ => false) [.ret 0 (.ok false)] []
      (by intro a ha; simp at ha; exact ⟨0, ha⟩)).1 0
  · exact (repeat_spec (fun _ => false) [] [] (by intro a ha; cases ha)).2.2.1 (.user 5)

/-! ### repeat_until_value (future-util.hh lines 413-517)

Same shape as `repeat`, with `future<optional<T>>` results: an engaged
optional stops the loop and becomes the value of the returned `future<T>`;
a disengaged optional continues.  In the initial synchronous loop a failed
available future is returned as an immediate exception future, and a
synchronous throw of the action propagates out of the call itself (there is
no try around the initial loop); in `repeat_until_value_state` both fail the
promise.  Suspension and preemption allocate the heap state exactly as in
`repeat` (values are modelled as `Nat`). -/

/-- Observable result of `repeat_until_value`; `escaped` is true iff the
exception propagated synchronously out of the call instead of failing the
returned future (only possible for a throw in the initial loop). -/
structure RuvRes where
  out : Res Nat
  invocations : Nat
  allocs : Nat
  immediate : Bool
  escaped : Bool
  bursts : List Nat
deriving DecidableEq

/-- One unrolling of the `repeat_until_value` loop (the fast path, lines
486-517, and `repeat_until_value_state::run_and_dispose`, lines 425-457),
with the same accumulator discipline as `repeatGo`. -/
def ruvGo (pre : Nat → Bool) :
    List (ARes (Option Nat)) → Nat → Nat → Nat → List Nat → Bool → Option RuvRes
  | [], _, _, _, _, _ => none
  | .throws e :: _, inv, al, burst, bursts, imm =>
    some ⟨.error e, inv + 1, al, imm, imm, bursts ++ [burst + 1]⟩
  | .ret rt (.error e) :: _, inv, al, burst, bursts, imm =>
    if rt = 0 then
      some ⟨.error e, inv + 1, al, imm, false, bursts ++ [burst + 1]⟩
    else
      some ⟨.error e, inv + 1, al + (if imm then 1 else 0), false, false,
        bursts ++ [burst + 1]⟩
  | .ret rt (.ok (some v)) :: _, inv, al, burst, bursts, imm =>
    if rt = 0 then
      some ⟨.ok v, inv + 1, al, imm, false, bursts ++ [burst + 1]⟩
    else
      some ⟨.ok v, inv + 1, al + (if imm then 1 else 0), false, false,
        bursts ++ [burst + 1]⟩
  | .ret rt (.ok none) :: rest, inv, al, burst, bursts, imm =>
    if rt = 0 then
      if pre inv then
        ruvGo pre rest (inv + 1) (al + (if imm then 1 else 0)) 0
          (bursts ++ [burst + 1]) false
      else
        ruvGo pre rest (inv + 1) al (burst + 1) bursts imm
    else
      ruvGo pre rest (inv + 1) (al + (if imm then 1 else 0)) 0
        (bursts ++ [burst + 1]) false

/-- `repeat_until_value(action)` over the trace of action results. -/
def repeat_until_value (pre : Nat → Bool) (trace : List (ARes (Option Nat))) :
    Option RuvRes :=
  ruvGo pre trace 0 0 0 [] true

theorem ruvGo_sum (pre : Nat → Bool) :
    ∀ (trace : List (ARes (Option Nat))) (inv al burst : Nat) (bursts : List Nat)
      (imm : Bool) (r : RuvRes), ruvGo pre trace inv al burst bursts imm = some r →
      r.bursts.sum + inv = bursts.sum + burst + r.invocations := by
  intro trace
  induction trace with
  | nil => intro inv al burst bursts imm r h; simp [ruvGo] at h
  | cons a rest ih =>
    intro inv al burst bursts imm r h
    cases a with
    | throws e =>
      rw [ruvGo] at h
      cases h
      simp [List.sum_append]
      omega
    | ret rt res =>
      cases res with
      | error e =>
        rw [ruvGo] at h
        split at h <;> (cases h; simp [List.sum_append]; omega)
      | ok v =>
        cases v with
        | some x =>
          rw [ruvGo] at h
          split at h <;> (cases h; simp [List.sum_append]; omega)
        | none =>
          rw [ruvGo] at h
          split at h
          · split at h
            · have := ih _ _ _ _ _ _ h
              simp [List.sum_append] at this ⊢
              omega
            · have := ih _ _ _ _ _ _ h
              omega
          · have := ih _ _ _ _ _ _ h
            simp [List.sum_append] at this ⊢
            omega

theorem ruvGo_preempt_bursts (pre : Nat → Bool) (hpre : ∀ i, pre i = true) :
    ∀ (trace : List (ARes (Option Nat))) (inv al : Nat) (bursts : List Nat)
      (imm : Bool) (r : RuvRes) (_hbs : ∀ b ∈ bursts, b = 1),
      ruvGo pre trace inv al 0 bursts imm = some r → ∀ b ∈ r.bursts, b = 1 := by
  intro trace
  induction trace with
  | nil => intro inv al bursts imm r hbs h; simp [ruvGo] at h
  | cons a rest ih =>
    intro inv al bursts imm r hbs h
    have hone : ∀ b ∈ bursts ++ [0 + 1], b = 1 := by
      intro b hb
      rcases List.mem_append.mp hb with hb | hb
      · exact hbs b hb
      · simpa using hb
    cases a with
    | throws e =>
      rw [ruvGo] at h
      cases h
      exact hone
    | ret rt res =>
      cases res with
      | error e =>
        rw [ruvGo] at h
        split at h <;> (cases h; exact hone)
      | ok v =>
        cases v with
        | some x =>
          rw [ruvGo] at h
          split at h <;> (cases h; exact hone)
        | none =>
          rw [ruvGo] at h
          split at h
          · rw [hpre inv] at h
            simp only [if_true] at h
            exact ih _ _ _ _ _ hone h
          · exact ih _ _ _ _ _ hone h

theorem ruvGo_not_immediate (pre : Nat → Bool) :
    ∀ (trace : List (ARes (Option Nat))) (inv al burst : Nat) (bursts : List Nat)
      (imm : Bool) (r : RuvRes) (_himm : bursts = [] ∨ imm = false),
      ruvGo pre trace inv al burst bursts imm = some r →
      2 ≤ r.bursts.length → r.immediate = false := by
  intro trace
  induction trace with
  | nil => intro inv al burst bursts imm r himm h; simp [ruvGo] at h
  | cons a rest ih =>
    intro inv al burst bursts imm r himm h hlen
    cases a with
    | throws e =>
      rw [ruvGo] at h
      cases h
      simp at hlen ⊢
      rcases himm with h0 | h0
      · simp [h0] at hlen
      · exact h0
    | ret rt res =>
      cases res with
      | error e =>
        rw [ruvGo] at h
        split at h
        · cases h
          simp at hlen ⊢
          rcases himm with h0 | h0
          · simp [h0] at hlen
          · exact h0
        · cases h
          rfl
      | ok v =>
        cases v with
        | some x =>
          rw [ruvGo] at h
          split at h
          · cases h
            simp at hlen ⊢
            rcases himm with h0 | h0
            · simp [h0] at hlen
            · exact h0
          · cases h
            rfl
        | none =>
          rw [ruvGo] at h
          split at h
          · split at h
            · exact ih _ _ _ _ _ _ (Or.inr rfl) h hlen
            · exact ih _ _ _ _ _ _ himm h hlen
          · exact ih _ _ _ _ _ _ (Or.inr rfl) h hlen

/-! ### do_until (future-util.hh lines 521-603)

`do_until(stop, action)`: the synchronous loop first consults `stop()`; if
true the returned future is an immediate ready future; otherwise the action
is invoked (`futurize<void>::apply` reifies synchronous throws into an
available failed future, so an action result is simply a `SubF`).  A failed
available future is returned (forwarded) as the failure of the result; a
non-available future suspends into a heap `do_until_state`; after a
successful available iteration `need_preempt()` decides between continuing
the burst and scheduling the state.  `do_until_state::run_and_dispose`
replays the same loop on wake-up.

The stop condition is modelled by the list of its successive evaluation
results, the action by the list of its successive invocation results;
iteration `i` consults `stops[i]` and, if that is false, invokes
`acts[i]`. -/

/-- Observable result of `do_until`: outcome, number of stop-condition
evaluations, number of action invocations, heap allocations, readiness of
the returned future at call time, and synchronous-run lengths (counted in
action invocations; the final run may hold 0 invocations when the loop ends
on a stop evaluation). -/
structure DURes where
  out : Res Unit
  stopEvals : Nat
  invocations : Nat
  allocs : Nat
  immediate : Bool
  bursts : List Nat
deriving DecidableEq

/-- One unrolling of the `do_until` loop (the fast path, lines 577-603, and
`do_until_state::run_and_dispose`, lines 529-559), with the accumulator
discipline of `repeatGo` plus the count `se` of stop evaluations. -/
def doUntilGo (pre : Nat → Bool) :
    List Bool → List SubF → Nat → Nat → Nat → Nat → List Nat → Bool → Option DURes
  | [], _, _, _, _, _, _, _ => none
  | true :: _, _, se, inv, al, burst, bursts, imm =>
    some ⟨.ok (), se + 1, inv, al, imm, bursts ++ [burst]⟩
  | false :: _, [], _, _, _, _, _, _ => none
  | false :: _, ⟨rt, some e⟩ :: _, se, inv, al, burst, bursts, imm =>
    if rt = 0 then
      some ⟨.error e, se + 1, inv + 1, al, imm, bursts ++ [burst + 1]⟩
    else
      some ⟨.error e, se + 1, inv + 1, al + (if imm then 1 else 0), false,
        bursts ++ [burst + 1]⟩
  | false :: srest, ⟨rt, none⟩ :: arest, se, inv, al, burst, bursts, imm =>
    if rt = 0 then
      if pre inv then
        doUntilGo pre srest arest (se + 1) (inv + 1) (al + (if imm then 1 else 0)) 0
          (bursts ++ [burst + 1]) false
      else
        doUntilGo pre srest arest (se + 1) (inv + 1) al (burst + 1) bursts imm
    else
      doUntilGo pre srest arest (se + 1) (inv + 1) (al + (if imm then 1 else 0)) 0
        (bursts ++ [burst + 1]) false

/-- `do_until(stop, action)` over the traces of stop evaluations and action
results. -/
def do_until (pre : Nat → Bool) (stops : List Bool) (acts : List SubF) :
    Option DURes :=
  doUntilGo pre stops acts 0 0 0 0 [] true

theorem doUntilGo_sum (pre : Nat → Bool) :
    ∀ (stops : List Bool) (acts : List SubF) (se inv al burst : Nat)
      (bursts : List Nat) (imm : Bool) (r : DURes),
      doUntilGo pre stops acts se inv al burst bursts imm = some r →
      r.bursts.sum + inv = bursts.sum + burst + r.invocations := by
  intro stops
  induction stops with
  | nil => intro acts se inv al burst bursts imm r h; simp [doUntilGo] at h
  | cons s srest ih =>
    intro acts se inv al burst bursts imm r h
    cases s with
    | true =>
      rw [doUntilGo] at h
      cases h
      simp only [List.sum_append, List.sum_cons, List.sum_nil]
      omega
    | false =>
      rcases acts with _ | ⟨⟨rt, _ | e⟩, arest⟩
      · simp [doUntilGo] at h
      · rw [doUntilGo] at h
        split at h
        · split at h
          · have := ih _ _ _ _ _ _ _ _ h
            simp only [List.sum_append, List.sum_cons, List.sum_nil] at this ⊢
            omega
          · have := ih _ _ _ _ _ _ _ _ h
            omega
        · have := ih _ _ _ _ _ _ _ _ h
          simp only [List.sum_append, List.sum_cons, List.sum_nil] at this ⊢
          omega
      · rw [doUntilGo] at h
        split at h <;>
          (cases h; simp only [List.sum_append, List.sum_cons, List.sum_nil]; omega)

theorem doUntilGo_preempt_bursts (pre : Nat → Bool) (hpre : ∀ i, pre i = true) :
    ∀ (stops : List Bool) (acts : List SubF) (se inv al : Nat)
      (bursts : List Nat) (imm : Bool) (r : DURes) (_hbs : ∀ b ∈ bursts, b ≤ 1),
      doUntilGo pre stops acts se inv al 0 bursts imm = some r →
      ∀ b ∈ r.bursts, b ≤ 1 := by
  intro stops
  induction stops with
  | nil => intro acts se inv al bursts imm r hbs h; simp [doUntilGo] at h
  | cons s srest ih =>
    intro acts se inv al bursts imm r hbs h
    have hone : ∀ b ∈ bursts ++ [0 + 1], b ≤ 1 := by
      intro b hb
      rcases List.mem_append.mp hb with hb | hb
      · exact hbs b hb
      · simp at hb
        omega
    cases s with
    | true =>
      rw [doUntilGo] at h
      cases h
      intro b hb
      rcases List.mem_append.mp hb with hb | hb
      · exact hbs b hb
      · simp at hb
        omega
    | false =>
      rcases acts with _ | ⟨⟨rt, _ | e⟩, arest⟩
      · simp [doUntilGo] at h
      · rw [doUntilGo] at h
        split at h
        · rw [hpre inv] at h
          simp only [if_true] at h
          exact ih _ _ _ _ _ _ _ hone h
        · exact ih _ _ _ _ _ _ _ hone h
      · rw [doUntilGo] at h
        split at h <;> (cases h; exact hone)

theorem doUntilGo_not_immediate (pre : Nat → Bool) :
    ∀ (stops : List Bool) (acts : List SubF) (se inv al burst : Nat)
      (bursts : List Nat) (imm : Bool) (r : DURes) (_himm : bursts = [] ∨ imm = false),
      doUntilGo pre stops acts se inv al burst bursts imm = some r →
      2 ≤ r.bursts.length → r.immediate = false := by
  intro stops
  induction stops with
  | nil => intro acts se inv al burst bursts imm r himm h; simp [doUntilGo] at h
  | cons s srest ih =>
    intro acts se inv al burst bursts imm r himm h hlen
    cases s with
    | true =>
      rw [doUntilGo] at h
      cases h
      simp at hlen ⊢
      rcases himm with h0 | h0
      · simp [h0] at hlen
      · exact h0
    | false =>
      rcases acts with _ | ⟨⟨rt, _ | e⟩, arest⟩
      · simp [doUntilGo] at h
      · rw [doUntilGo] at h
        split at h
        · split at h
          · exact ih _ _ _ _ _ _ _ _ (Or.inr rfl) h hlen
          · exact ih _ _ _ _ _ _ _ _ himm h hlen
        · exact ih _ _ _ _ _ _ _ _ (Or.inr rfl) h hlen
      · rw [doUntilGo] at h
        split at h
        · cases h
          simp at hlen ⊢
          rcases himm with h0 | h0
          · simp [h0] at hlen
          · exact h0
        · cases h
          rfl

/-- Skipping `k` iterations whose stop evaluation is false and whose action
future succeeds (at any resolution time): the loop continues, adding one
stop evaluation and one invocation per iteration. -/
theorem doUntilGo_skip (pre : Nat → Bool) (afx : List SubF)
    (hafx : ∀ a ∈ afx, a.exn = none) :
    ∀ (srest : List Bool) (arest : List SubF) (se inv al burst : Nat)
      (bursts : List Nat) (imm : Bool),
      ∃ al2 burst2 bursts2 imm2,
        doUntilGo pre (List.replicate afx.length false ++ srest) (afx ++ arest)
            se inv al burst bursts imm
          = doUntilGo pre srest arest (se + afx.length) (inv + afx.length)
              al2 burst2 bursts2 imm2 := by
  induction afx with
  | nil => exact fun srest arest se inv al burst bursts imm =>
      ⟨al, burst, bursts, imm, by simp⟩
  | cons a afx' ih =>
    intro srest arest se inv al burst bursts imm
    rcases a with ⟨rt, ex⟩
    have ha : ex = none := hafx ⟨rt, ex⟩ (List.mem_cons_self _ _)
    subst ha
    have hafx' : ∀ b ∈ afx', b.exn = none := fun b hb => hafx b (List.mem_cons_of_mem _ hb)
    have ihx := ih hafx'
    have h1 : se + 1 + afx'.length = se + (afx'.length + 1) := by omega
    have h2 : inv + 1 + afx'.length = inv + (afx'.length + 1) := by omega
    simp only [List.length_cons, List.replicate_succ, List.cons_append]
    by_cases hrt : rt = 0
    · by_cases hp : pre inv
      · rcases ihx srest arest (se + 1) (inv + 1) (al + (if imm then 1 else 0)) 0
            (bursts ++ [burst + 1]) false with ⟨a2, b2, c2, d2, heq⟩
        refine ⟨a2, b2, c2, d2, ?_⟩
        rw [doUntilGo, if_pos hrt, if_pos hp, heq, h1, h2]
      · rcases ihx srest arest (se + 1) (inv + 1) al (burst + 1) bursts imm
          with ⟨a2, b2, c2, d2, heq⟩
        refine ⟨a2, b2, c2, d2, ?_⟩
        rw [doUntilGo, if_pos hrt, if_neg hp, heq, h1, h2]
    · rcases ihx srest arest (se + 1) (inv + 1) (al + (if imm then 1 else 0)) 0
          (bursts ++ [burst + 1]) false with ⟨a2, b2, c2, d2, heq⟩
      refine ⟨a2, b2, c2, d2, ?_⟩
      rw [doUntilGo, if_neg hrt, heq, h1, h2]

/-- Claim C7: `do_until` consults the stop condition before every invocation
of the action and never after one.  If the first evaluation of stop returns
true, the returned future is immediately ready-successful, the action is
never invoked, and no state is allocated; in general, a loop whose first `k`
stop evaluations return false (each followed by a successful action
invocation) and whose `k+1`-st returns true ends successfully after exactly
`k+1` stop evaluations and `k` invocations — one false evaluation before
each invocation and no evaluation after the last one. -/
theorem do_until_spec (pre : Nat → Bool) (afx arest : List SubF) (srest : List Bool)
    (hafx : ∀ a ∈ afx, a.exn = none) :
    (∃ al imm bursts, do_until pre (List.replicate afx.length false ++ true :: srest)
        (afx ++ arest) = some ⟨.ok (), afx.length + 1, afx.length, al, imm, bursts⟩) ∧
    (∀ acts, do_until pre (true :: srest) acts = some ⟨.ok (), 1, 0, 0, true, [0]⟩) := by
  constructor
  · rcases doUntilGo_skip pre afx hafx (true :: srest) arest 0 0 0 0 [] true
      with ⟨al2, b2, c2, d2, heq⟩
    rw [do_until, heq, doUntilGo]
    exact ⟨al2, d2, c2 ++ [b2], by simp [Nat.add_comm]⟩
  · intro acts
    rw [do_until, doUntilGo]
    rfl

/-- Witness for claim C7: stop returns true at once — the action is never
invoked, the result is immediately ready with no allocation; and with two
false evaluations before the true one the action runs exactly twice. -/
theorem do_until_spec_witness :
    (do_until (fun _ => false) [true] [] = some ⟨.ok (), 1, 0, 0, true, [0]⟩) ∧
    (∃ al imm bursts, do_until (fun _ => false) [false, false, true]
        [⟨0, none⟩, ⟨0, none⟩] = some ⟨.ok (), 3, 2, al, imm, bursts⟩) := by
  constructor
  · exact (do_until_spec (fun _ => false) [] [] [] (by intro a ha; cases ha)).2 []
  · exact (do_until_spec (fun _ => false) [⟨0, none⟩, ⟨0, none⟩] [] []
      (by
        intro a ha
        rcases List.mem_cons.mp ha with h | h
        · simp [h]
        · rcases List.mem_cons.mp h with h2 | h2
          · simp [h2]
          · exact absurd h2 (List.not_mem_nil a))).1

/-- Claim C8: in each unbounded synchronous loop — `repeat`,
`repeat_until_value`, `do_until`, including the heap-state replays of each —
`need_preempt()` is consulted once per iteration of the synchronous fast
path: every invocation belongs to exactly one synchronous burst
(`bursts.sum = invocations`); if `need_preempt()` is true at every check, no
burst runs two action invocations back to back (for `repeat` and
`repeat_until_value` every burst has length exactly 1; for `do_until` the
final burst can be the bare terminating stop evaluation, hence length at
most 1); and whenever a loop yields before terminating (two or more bursts),
the future it returned was not yet ready. -/
theorem preemption_yield_spec :
    (∀ (pre : Nat → Bool) (trace : List (ARes Bool)) (r : RepeatRes),
        repeat_model pre trace = some r →
        r.bursts.sum = r.invocations ∧
        ((∀ i, pre i = true) → ∀ b ∈ r.bursts, b = 1) ∧
        (2 ≤ r.bursts.length → r.immediate = false)) ∧
    (∀ (pre : Nat → Bool) (trace : List (ARes (Option Nat))) (r : RuvRes),
        repeat_until_value pre trace = some r →
        r.bursts.sum = r.invocations ∧
        ((∀ i, pre i = true) → ∀ b ∈ r.bursts, b = 1) ∧
        (2 ≤ r.bursts.length → r.immediate = false)) ∧
    (∀ (pre : Nat → Bool) (stops : List Bool) (acts : List SubF) (r : DURes),
        do_until pre stops acts = some r →
        r.bursts.sum = r.invocations ∧
        ((∀ i, pre i = true) → ∀ b ∈ r.bursts, b ≤ 1) ∧
        (2 ≤ r.bursts.length → r.immediate = false)) := by
  refine ⟨?_, ?_, ?_⟩
  · intro pre trace r h
    refine ⟨?_, ?_, ?_⟩
    · have := repeatGo_sum pre trace 0 0 0 [] true r h
      simpa using this
    · intro hpre
      exact repeatGo_preempt_bursts pre hpre trace 0 0 [] true r (by intro b hb; cases hb) h
    · exact repeatGo_not_immediate pre trace 0 0 0 [] true r (Or.inl rfl) h
  · intro pre trace r h
    refine ⟨?_, ?_, ?_⟩
    · have := ruvGo_sum pre trace 0 0 0 [] true r h
      simpa using this
    · intro hpre
      exact ruvGo_preempt_bursts pre hpre trace 0 0 [] true r (by intro b hb; cases hb) h
    · exact ruvGo_not_immediate pre trace 0 0 0 [] true r (Or.inl rfl) h
  · intro pre stops acts r h
    refine ⟨?_, ?_, ?_⟩
    · have := doUntilGo_sum pre stops acts 0 0 0 0 [] true r h
      simpa using this
    · intro hpre
      exact doUntilGo_preempt_bursts pre hpre stops acts 0 0 0 [] true r
        (by intro b hb; cases hb) h
    · exact doUntilGo_not_immediate pre stops acts 0 0 0 0 [] true r (Or.inl rfl) h

/-- Witness for claim C8: `repeat` over three ready `no,no,yes` results with
`need_preempt()` constantly true — each burst runs exactly one invocation,
the three bursts cover the three invocations, and the returned future was
not ready when the first preemption trip enqueued the repeater. -/
theorem preemption_yield_spec_witness :
    repeat_model (fun _ => true)
        [.ret 0 (.ok false), .ret 0 (.ok false), .ret 0 (.ok true)]
      = some ⟨.ok (), 3, 1, false, [1, 1, 1]⟩ ∧
    (RepeatRes.mk (.ok ()) 3 1 false [1, 1, 1]).bursts.sum
      = (RepeatRes.mk (.ok ()) 3 1 false [1, 1, 1]).invocations ∧
    (∀ b ∈ (RepeatRes.mk (.ok ()) 3 1 false [1, 1, 1]).bursts, b = 1) ∧
    (RepeatRes.mk (.ok ()) 3 1 false [1, 1, 1]).immediate = false := by
  have h : repeat_model (fun _ => true)
      [.ret 0 (.ok false), .ret 0 (.ok false), .ret 0 (.ok true)]
      = some ⟨.ok (), 3, 1, false, [1, 1, 1]⟩ := rfl
  have hs := preemption_yield_spec.1 (fun _ => true) _ _ h
  exact ⟨h, hs.1, hs.2.1 (fun _ => rfl), hs.2.2 (by decide)⟩

/-! ### when_all / when_all_succeed (future-util.hh lines 683-835, 1234-1400)

`when_all_state::wait_all` (lines 821-834): if all sub-futures are already
available (the C++17 fold-expression fast path), the resolved-tuple
transform is applied directly to the tuple of futures with no allocation.
Otherwise one `when_all_state` is allocated holding the futures in a fixed
tuple; `complete_one` drives the slots in reverse index order, skipping
slots already available at the current time and installing a per-slot
continuation (placed into the state's single aligned scratch, not a heap
allocation) on the first one that is not; when that continuation fires it
writes the resolved future back into its slot and resumes the driver.  When
the index reaches zero the state is deleted and its destructor applies the
transform to the tuple, fulfilling the output promise.

The transform is `identity_futures_tuple` for `when_all` (lines 686-697,
always `set_value` — the result future itself never fails) and
`extract_values_from_futures_tuple` for `when_all_succeed` (lines
1263-1302).  The heterogeneous value tuples are modelled by lists of `Val`;
voidness of `future<>` is the type-level property modelled by `Val.unit`. -/

/-- An atomic value carried by a sub-future. -/
inductive Atom where
  | str (s : String)
  | int (n : Int)
  | bool (b : Bool)
deriving DecidableEq

/-- The value tuple of one sub-future: `unit` models `future<>` (void),
`single` a one-element tuple, `pair` a two-element tuple. -/
inductive Val where
  | unit
  | single (a : Atom)
  | pair (a b : Atom)
deriving DecidableEq

/-- A flattened output component of `when_all_succeed`: `untuple` of a
single-element tuple is the bare element, of a longer tuple the tuple. -/
inductive Flat where
  | atom (a : Atom)
  | pairv (a b : Atom)
deriving DecidableEq

/-- A sub-future handed to `when_all`: resolution time and outcome. -/
structure WFut where
  resTime : Nat
  res : Res Val
deriving DecidableEq

/-- The reverse-index driver of `when_all_state_base::complete_one`
(lines 731-749) over the reversed slot list (the state processes slot
`nr-1` first, then `nr-2`, ...): a slot available at the current time is
skipped (`process_element_func` returns ready, the slot is left in place);
an unavailable one is awaited — the per-slot continuation fires at its
resolution time and writes the resolved future back into the same slot.
The rebuilt slot list is returned in original tuple order together with the
time at which the driver finishes. -/
def whenAllDriveRev : List WFut → Nat → List WFut × Nat
  | [], t => ([], t)
  | f :: front, t =>
    if f.resTime ≤ t then
      let p := whenAllDriveRev front t
      (p.1 ++ [f], p.2)
    else
      let p := whenAllDriveRev front f.resTime
      (p.1 ++ [⟨0, f.res⟩], p.2)

/-- Result of `when_all`: resolution time of the returned future, its
outcome (which per `identity_futures_tuple` is always `ok` with the list of
resolved sub-future outcomes in input position), and heap allocations. -/
structure WARes where
  time : Nat
  result : Res (List (Res Val))
  allocs : Nat
deriving DecidableEq

/-- `when_all` (tuple form), lines 821-834 with the `identity_futures_tuple`
transform: the fast path applies when every sub-future is already
available; otherwise one `when_all_state` is allocated and driven in
reverse index order. -/
def when_all (fs : List WFut) : WARes :=
  if fs.all (fun f => f.resTime = 0) then
    ⟨0, .ok (fs.map (fun f => f.res)), 0⟩
  else
    let p := whenAllDriveRev fs.reverse 0
    ⟨p.2, .ok (p.1.map (fun f => f.res)), 1⟩

theorem whenAllDriveRev_map_res (l : List WFut) :
    ∀ (t : Nat), ((whenAllDriveRev l t).1).map (fun f => f.res)
      = (l.map (fun f => f.res)).reverse := by
  induction l with
  | nil => intro t; rfl
  | cons f front ih =>
    intro t
    rw [whenAllDriveRev]
    by_cases hle : f.resTime ≤ t
    · rw [if_pos hle]
      simp only [List.map_append, List.map_cons, List.map_nil, List.map, ih t,
        List.reverse_cons]
    · rw [if_neg hle]
      simp only [List.map_append, List.map_cons, List.map_nil, List.map,
        ih f.resTime, List.reverse_cons]

theorem whenAllDriveRev_time_le (l : List WFut) :
    ∀ (t : Nat), t ≤ (whenAllDriveRev l t).2 := by
  induction l with
  | nil => intro t; exact Nat.le_refl t
  | cons f front ih =>
    intro t
    rw [whenAllDriveRev]
    by_cases hle : f.resTime ≤ t
    · rw [if_pos hle]
      exact ih t
    · rw [if_neg hle]
      exact Nat.le_trans (Nat.le_of_lt (Nat.lt_of_not_le hle)) (ih f.resTime)

theorem whenAllDriveRev_time_mem (l : List WFut) (f : WFut) (hf : f ∈ l) :
    ∀ (t : Nat), f.resTime ≤ (whenAllDriveRev l t).2 := by
  induction l with
  | nil => cases hf
  | cons g front ih =>
    intro t
    rw [whenAllDriveRev]
    rcases List.mem_cons.mp hf with h | h
    · subst h
      by_cases hle : f.resTime ≤ t
      · rw [if_pos hle]
        exact Nat.le_trans hle (whenAllDriveRev_time_le front t)
      · rw [if_neg hle]
        exact whenAllDriveRev_time_le front f.resTime
    · by_cases hgle : g.resTime ≤ t
      · rw [if_pos hgle]
        exact ih h t
      · rw [if_neg hgle]
        exact ih h g.resTime

/-- Claim C3: `when_all` (tuple form) never returns a failed future — its
result is always `ok`, holding, at each input position, the resolved input
future from that same position (errors are reflected inside those
sub-futures, not in the composite), regardless of the order in which
sub-futures complete; and it does not resolve before every sub-future has
become ready. -/
theorem when_all_spec (fs : List WFut) :
    (when_all fs).result = .ok (fs.map (fun f => f.res)) ∧
    (∀ f ∈ fs, f.resTime ≤ (when_all fs).time) := by
  by_cases hall : fs.all (fun f => f.resTime = 0)
  · constructor
    · simp [when_all, hall]
    · intro f hf
      have h0 : f.resTime = 0 := by
        have := List.all_eq_true.mp hall f hf
        simpa using this
      simp [when_all, hall, h0]
  · constructor
    · simp only [when_all, hall, if_false, Bool.false_eq_true]
      rw [whenAllDriveRev_map_res, ← List.map_reverse, List.reverse_reverse]
    · intro f hf
      simp only [when_all, hall, if_false, Bool.false_eq_true]
      exact whenAllDriveRev_time_mem fs.reverse f (List.mem_reverse.mpr hf) 0

/-- Witness for claim C3: three sub-futures completing out of order (times
5, 0, 2), the middle one failed: `when_all` resolves successfully, no
earlier than time 5, with the three resolved futures in input positions. -/
theorem when_all_spec_witness :
    (when_all [⟨5, .ok (.single (.int 1))⟩, ⟨0, .error (.user 3)⟩,
        ⟨2, .ok .unit⟩]).result
      = .ok [.ok (.single (.int 1)), .error (.user 3), .ok .unit] ∧
    (⟨5, .ok (.single (.int 1))⟩ : WFut).resTime
      ≤ (when_all [⟨5, .ok (.single (.int 1))⟩, ⟨0, .error (.user 3)⟩,
          ⟨2, .ok .unit⟩]).time := by
  constructor
  · exact (when_all_spec _).1
  · exact (when_all_spec _).2 _ (by simp)

/-! #### the when_all_succeed transforms (lines 1263-1353) -/

/-- `internal::future_has_value` (lines 1236-1241): a sub-future carries a
value iff it is not `future<>`.  This is a type-level property; `Val.unit`
models the void value tuple. -/
def future_has_value : Val → Bool
  | .unit => false
  | .single _ => true
  | .pair _ _ => true

/-- `internal::untuple`: a one-element value tuple becomes its bare element,
a longer tuple stays a tuple.  Never applied to a void tuple — those are
filtered out by `tuple_filter_by_type<future_has_value>` first (the `unit`
branch is the unreachable placeholder). -/
def untupleVal : Val → Flat
  | .unit => .atom (.int 0)
  | .single a => .atom a
  | .pair a b => .pairv a b

/-- What happened to one input sub-future inside the transform:
`untouched` — scanned while no exception was captured yet, value left in
place for `prepare_result`; `valueTaken` — value moved into the output
vector; `excpTaken` — it is the first failure, its exception was extracted
by `get_exception()`; `ignored` — `ignore_ready_future()` was called on
it. -/
inductive FDisp where
  | untouched
  | valueTaken
  | excpTaken
  | ignored
deriving DecidableEq

/-- The value of a ready future, used by `prepare_result` only on the path
where the exception scan found no failure. -/
def okVal : Res Val → Val
  | .ok v => v
  | .error _ => .unit

/-- The exception scan of `extract_values_from_futures_tuple::transform`
(lines 1276-1284): walk the tuple in index order; while no exception is
captured, a failed future surrenders its exception and later futures are
`ignore_ready_future()`d. -/
def ewscan : List (Res Val) → Option Exn → Option Exn × List FDisp
  | [], excp => (excp, [])
  | _ :: rest, some e =>
    let r := ewscan rest (some e)
    (r.1, .ignored :: r.2)
  | .error e :: rest, none =>
    let r := ewscan rest (some e)
    (r.1, .excpTaken :: r.2)
  | .ok _ :: rest, none =>
    let r := ewscan rest none
    (r.1, .untouched :: r.2)

/-- `prepare_result` (lines 1266-1271): drop void sub-futures, untuple the
rest, preserving order. -/
def prepare_result (vs : List Val) : List Flat :=
  (vs.filter future_has_value).map untupleVal

/-- `extract_values_from_futures_tuple::transform` (lines 1265-1290):
failed if any sub-future failed (with the scan's exception), otherwise the
prepared flat values. -/
def extract_values (fs : List (Res Val)) : Res (List Flat) × List FDisp :=
  let s := ewscan fs none
  match s.1 with
  | some e => (.error e, s.2)
  | none => (.ok (prepare_result (fs.map okVal)), s.2)

/-- Result of `when_all_succeed` (variadic form): resolution time, outcome,
heap allocations, and the disposition of every input sub-future. -/
structure WASRes where
  time : Nat
  result : Res (List Flat)
  allocs : Nat
  disps : List FDisp
deriving DecidableEq

/-- `when_all_succeed` (variadic form, lines 1357-1377):
`when_all_state::wait_all` with the `extract_values_from_futures_tuple`
transform. -/
def when_all_succeed (fs : List WFut) : WASRes :=
  if fs.all (fun f => f.resTime = 0) then
    let e := extract_values (fs.map (fun f => f.res))
    ⟨0, e.1, 0, e.2⟩
  else
    let p := whenAllDriveRev fs.reverse 0
    let e := extract_values (p.1.map (fun f => f.res))
    ⟨p.2, e.1, 1, e.2⟩

/-- The scan of `extract_values_from_futures_vector::run` (lines
1310-1330): like the tuple scan, but values are moved into the output
vector as they are encountered. -/
def evvScan : List (Res Val) → Option Exn → Option Exn × List Flat × List FDisp
  | [], excp => (excp, [], [])
  | _ :: rest, some e =>
    let r := evvScan rest (some e)
    (r.1, r.2.1, .ignored :: r.2.2)
  | .error e :: rest, none =>
    let r := evvScan rest (some e)
    (r.1, r.2.1, .excpTaken :: r.2.2)
  | .ok v :: rest, none =>
    let r := evvScan rest none
    (r.1, untupleVal v :: r.2.1, .valueTaken :: r.2.2)

/-- `when_all_succeed` (iterator form, lines 1389-1400):
`extract_values_from_futures_vector::run` applied to the completed futures
in input order. -/
def when_all_succeed_vector (fs : List (Res Val)) : Res (List Flat) × List FDisp :=
  let s := evvScan fs none
  match s.1 with
  | some e => (.error e, s.2.2)
  | none => (.ok s.2.1, s.2.2)

theorem when_all_succeed_transform (fs : List WFut) :
    (when_all_succeed fs).result = (extract_values (fs.map (fun f => f.res))).1 ∧
    (when_all_succeed fs).disps = (extract_values (fs.map (fun f => f.res))).2 := by
  by_cases hall : fs.all (fun f => f.resTime = 0)
  · constructor <;> simp [when_all_succeed, hall]
  · constructor <;>
      (simp only [when_all_succeed, hall, if_false, Bool.false_eq_true]
       rw [whenAllDriveRev_map_res, ← List.map_reverse, List.reverse_reverse])

theorem ewscan_ignored (rest : List (Res Val)) :
    ∀ (e : Exn), ewscan rest (some e)
      = (some e, List.replicate rest.length .ignored) := by
  induction rest with
  | nil => intro e; rfl
  | cons f r ih =>
    intro e
    rw [ewscan]
    simp [ih e, List.replicate_succ]

theorem ewscan_ok (vs : List Val) :
    ewscan (vs.map Res.ok) none = (none, List.replicate vs.length .untouched) := by
  induction vs with
  | nil => rfl
  | cons v r ih =>
    rw [List.map_cons, ewscan]
    simp [ih, List.replicate_succ]

theorem ewscan_first_error (vs : List Val) (e : Exn) (rest : List (Res Val)) :
    ewscan (vs.map Res.ok ++ .error e :: rest) none
      = (some e, List.replicate vs.length .untouched
          ++ .excpTaken :: List.replicate rest.length .ignored) := by
  induction vs with
  | nil =>
    rw [List.map_nil, List.nil_append, ewscan]
    simp [ewscan_ignored]
  | cons v r ih =>
    rw [List.map_cons, List.cons_append, ewscan]
    simp [ih, List.replicate_succ]

theorem evvScan_ignored (rest : List (Res Val)) :
    ∀ (e : Exn), evvScan rest (some e)
      = (some e, [], List.replicate rest.length .ignored) := by
  induction rest with
  | nil => intro e; rfl
  | cons f r ih =>
    intro e
    rw [evvScan]
    simp [ih e, List.replicate_succ]

theorem evvScan_first_error (vs : List Val) (e : Exn) (rest : List (Res Val)) :
    evvScan (vs.map Res.ok ++ .error e :: rest) none
      = (some e, vs.map untupleVal, List.replicate vs.length .valueTaken
          ++ .excpTaken :: List.replicate rest.length .ignored) := by
  induction vs with
  | nil =>
    rw [List.map_nil, List.nil_append, evvScan]
    simp [evvScan_ignored]
  | cons v r ih =>
    rw [List.map_cons, List.cons_append, evvScan]
    simp [ih, List.replicate_succ]

/-- Claim C6: when every sub-future succeeds, `when_all_succeed` produces
the flat values: void sub-futures are dropped, single-element sub-futures
are unwrapped, longer tuples are kept nested, input order is preserved; in
particular the spec's scenario 5 — inputs `ready<>()`,
`ready("hello world")`, `ready(42)`, `ready<>()`, `ready(84,"hi")`,
`ready(true)` — yields the tuple
`("hello world", 42, (84,"hi"), true)`. -/
theorem when_all_succeed_values (vs : List Val) :
    (when_all_succeed (vs.map (fun v => ⟨0, .ok v⟩))).result
      = .ok ((vs.filter future_has_value).map untupleVal) ∧
    (when_all_succeed [⟨0, .ok .unit⟩, ⟨0, .ok (.single (.str "hello world"))⟩,
        ⟨0, .ok (.single (.int 42))⟩, ⟨0, .ok .unit⟩,
        ⟨0, .ok (.pair (.int 84) (.str "hi"))⟩,
        ⟨0, .ok (.single (.bool true))⟩]).result
      = .ok [.atom (.str "hello world"), .atom (.int 42),
          .pairv (.int 84) (.str "hi"), .atom (.bool true)] := by
  constructor
  · rw [(when_all_succeed_transform _).1]
    have hmap : (vs.map (fun v => (⟨0, .ok v⟩ : WFut))).map (fun f => f.res)
        = vs.map Res.ok := by
      rw [List.map_map]
      rfl
    rw [hmap, extract_values]
    simp only [ewscan_ok vs]
    have hok : (vs.map Res.ok).map okVal = vs := by
      rw [List.map_map]
      have : (okVal ∘ Res.ok) = id := by
        funext v
        rfl
      rw [this, List.map_id]
    rw [hok]
    rfl
  · decide

/-- Claim C10: when more than one sub-future of `when_all_succeed` has
failed, the exception carried by the returned failed future is that of the
first failed sub-future in input order — lowest index in the variadic/tuple
form, earliest position in the iterator/vector form — and every sub-future
after that first failure (in particular every subsequent failed one) is
explicitly observed via `ignore_ready_future()`, so none is dropped
silently. -/
theorem when_all_succeed_first_error (fs : List WFut) (vs : List Val) (e : Exn)
    (rest : List (Res Val))
    (h : fs.map (fun f => f.res) = vs.map Res.ok ++ .error e :: rest) :
    (when_all_succeed fs).result = .error e ∧
    (when_all_succeed fs).disps
      = List.replicate vs.length .untouched
          ++ .excpTaken :: List.replicate rest.length .ignored ∧
    (when_all_succeed_vector (fs.map (fun f => f.res))).1 = .error e ∧
    (when_all_succeed_vector (fs.map (fun f => f.res))).2
      = List.replicate vs.length .valueTaken
          ++ .excpTaken :: List.replicate rest.length .ignored := by
  refine ⟨?_, ?_, ?_, ?_⟩
  · rw [(when_all_succeed_transform _).1, h, extract_values]
    simp only [ewscan_first_error vs e rest]
  · rw [(when_all_succeed_transform _).2, h, extract_values]
    simp only [ewscan_first_error vs e rest]
  · rw [h, when_all_succeed_vector]
    simp only [evvScan_first_error vs e rest]
  · rw [h, when_all_succeed_vector]
    simp only [evvScan_first_error vs e rest]

/-- Witness for claim C10 at a concrete input (spec scenario 6 shape): four
sub-futures of which the second and third fail (carrying 42 and 43); both
forms fail with exception 42 — the first failure in input order — and the
two later sub-futures, including the failed one carrying 43, are
`ignore_ready_future()`d. -/
theorem when_all_succeed_first_error_witness :
    (when_all_succeed [⟨0, .ok .unit⟩, ⟨2, .error (.user 42)⟩,
        ⟨0, .error (.user 43)⟩, ⟨1, .ok (.single (.int 9))⟩]).result
      = .error (.user 42) ∧
    (when_all_succeed [⟨0, .ok .unit⟩, ⟨2, .error (.user 42)⟩,
        ⟨0, .error (.user 43)⟩, ⟨1, .ok (.single (.int 9))⟩]).disps
      = [.untouched, .excpTaken, .ignored, .ignored] := by
  have h := when_all_succeed_first_error
    [⟨0, .ok .unit⟩, ⟨2, .error (.user 42)⟩, ⟨0, .error (.user 43)⟩,
      ⟨1, .ok (.single (.int 9))⟩]
    [.unit] (.user 42) [.error (.user 43), .ok (.single (.int 9))] (by decide)
  exact ⟨h.1, h.2.1⟩

/-! ### with_timeout (future-util.hh lines 1187-1232)

`with_timeout(timeout, f)`: if `f` is available it is returned directly
(no allocation, no timer).  Otherwise a promise is heap-allocated, a timer
armed at the deadline whose callback fails the promise with
`ExceptionFactory::timeout()`, and a continuation attached to `f` that, on
completion, tries to cancel the timer: on success the input's result is
forwarded to the promise, on failure (timer already fired) the input's
readiness is observed and discarded via `ignore_ready_future()`.  In the
discrete-time model the timer fires at the deadline, so the cancellation
succeeds exactly when `f` resolves strictly before the deadline (a tie is
resolved in favour of the timer). -/

/-- What became of the input future inside `with_timeout`. -/
inductive TDisp where
  | returnedDirectly
  | forwarded
  | ignored
deriving DecidableEq

/-- Result of `with_timeout`: the returned future (resolution time and
outcome), heap allocations, and the input's disposition. -/
structure WTRes where
  res : SubF
  allocs : Nat
  disp : TDisp
deriving DecidableEq

/-- `default_timeout_exception_factory::timeout()` produces a
`timed_out_error` (lines 1194-1198). -/
def default_timeout_exception_factory : Exn := .timed_out

/-- `with_timeout` (lines 1213-1232), parametrised by the exception `fe`
the configured exception factory produces. -/
def with_timeout (deadline : Nat) (fe : Exn) (f : SubF) : WTRes :=
  if f.resTime = 0 then
    ⟨f, 0, .returnedDirectly⟩
  else if f.resTime < deadline then
    ⟨⟨f.resTime, f.exn⟩, 1, .forwarded⟩
  else
    ⟨⟨deadline, some fe⟩, 1, .ignored⟩

/-- Claim C4: `with_timeout(t, f)` returns `f` itself when `f` is already
available; otherwise, when the deadline is reached before `f` resolves, the
returned future fails at the deadline with the exception produced by the
configured exception factory (`timed_out_error` for the default factory)
while the input's later resolution is observed and discarded
(`ignore_ready_future`) without affecting the already-resolved result; and
when `f` resolves before the deadline its result — value or exception — is
forwarded unchanged (the timer having been cancelled). -/
theorem with_timeout_spec (deadline : Nat) (fe : Exn) (f : SubF) :
    (f.resTime = 0 → with_timeout deadline fe f = ⟨f, 0, .returnedDirectly⟩) ∧
    (0 < f.resTime → deadline ≤ f.resTime →
      with_timeout deadline fe f = ⟨⟨deadline, some fe⟩, 1, .ignored⟩) ∧
    (0 < f.resTime → f.resTime < deadline →
      with_timeout deadline fe f = ⟨⟨f.resTime, f.exn⟩, 1, .forwarded⟩) ∧
    default_timeout_exception_factory = .timed_out := by
  refine ⟨?_, ?_, ?_, rfl⟩
  · intro h0
    rw [with_timeout, if_pos h0]
  · intro hpos hle
    rw [with_timeout, if_neg (by omega), if_neg (by omega)]
  · intro hpos hlt
    rw [with_timeout, if_neg (by omega), if_pos hlt]

/-- Witness for claim C4 (spec scenarios 8 and 9): a future that never
resolves before a deadline of 2 times out with `timed_out_error` under the
default factory, the pending input being discarded; a future resolving to a
value at time 1 against a deadline of 5 is forwarded unchanged; an
already-available future is returned directly with no allocation. -/
theorem with_timeout_spec_witness :
    with_timeout 2 default_timeout_exception_factory ⟨9, none⟩
      = ⟨⟨2, some .timed_out⟩, 1, .ignored⟩ ∧
    with_timeout 5 default_timeout_exception_factory ⟨1, none⟩
      = ⟨⟨1, none⟩, 1, .forwarded⟩ ∧
    with_timeout 5 default_timeout_exception_factory ⟨0, some (.user 8)⟩
      = ⟨⟨0, some (.user 8)⟩, 0, .returnedDirectly⟩ := by
  refine ⟨?_, ?_, ?_⟩
  · exact (with_timeout_spec 2 default_timeout_exception_factory ⟨9, none⟩).2.1
      (by decide) (by decide)
  · exact (with_timeout_spec 5 default_timeout_exception_factory ⟨1, none⟩).2.2.1
      (by decide) (by decide)
  · exact (with_timeout_spec 5 default_timeout_exception_factory
      ⟨0, some (.user 8)⟩).1 rfl

/-! ### do_for_each (future-util.hh lines 635-660)

`do_for_each(begin, end, action)`: an empty range yields an immediate ready
future.  Otherwise, per iteration: invoke the action
(`futurize<void>::apply` reifies synchronous throws into an available
failed future, so an action result is a `SubF`), advance the iterator, and
— if the iterator reached the end — return the action's future itself
(ready or not).  If the future is not available, or `need_preempt()` is
true, a continuation is allocated via `then()` that recurses on the rest of
the range when the future resolves successfully and propagates its failure
otherwise.  An available failed future is returned directly. -/

/-- Observable result of `do_for_each`. -/
structure DFERes where
  out : Res Unit
  invocations : Nat
  allocs : Nat
  immediate : Bool
deriving DecidableEq

/-- One unrolling of the `do_for_each` loop (lines 640-660); `acts` holds
one action result per remaining range element. -/
def dfeGo (pre : Nat → Bool) :
    List SubF → Nat → Nat → Bool → DFERes
  | [], inv, al, imm => ⟨.ok (), inv, al, imm⟩
  | a :: rest, inv, al, imm =>
    if rest.isEmpty then
      ⟨match a.exn with | some e => .error e | none => .ok (), inv + 1, al,
        imm && (a.resTime == 0)⟩
    else if a.resTime ≠ 0 || pre inv then
      match a.exn with
      | some e => ⟨.error e, inv + 1, al + 1, false⟩
      | none => dfeGo pre rest (inv + 1) (al + 1) false
    else
      match a.exn with
      | some e => ⟨.error e, inv + 1, al, imm⟩
      | none => dfeGo pre rest (inv + 1) al imm

/-- `do_for_each(begin, end, action)` over the action-result trace (one
entry per range element). -/
def do_for_each (pre : Nat → Bool) (acts : List SubF) : DFERes :=
  dfeGo pre acts 0 0 true

/-! ### map_reduce, explicit-fold overload (future-util.hh lines 1087-1111)

The driver walks the range, invoking the mapper synchronously; for each
element it replaces its chain future by
`ret = mapper_future.then_wrapped(g)` where `g` updates the shared
accumulator `s->result = s->reduce(s->result, f.get0())` and returns the
previous `ret`.  Crucially `g` is attached directly to the mapper's future,
not sequenced after the previous fold: it runs when that mapper future
completes — immediately, during the walk, for a mapper future that is
already available (a continuation installed on a ready future runs at
once), and at its resolution time otherwise.  The accumulator is therefore
folded in completion order: the already-available mapper values in
iteration order first (they are folded during the call itself), then the
deferred ones as they resolve.  The returned future resolves once every
link of the chain has, i.e. after all mapper futures completed.

Only runs in which every mapper future succeeds are modelled (the claim,
and the counterexample, concern that path; the catch branch is never
taken).  Deferred futures resolving at the same instant are folded in
iteration order (the model's stable insertion by resolution time). -/

/-- A mapper future: resolution time (`0` = available at the call) and
value. -/
structure MapFut where
  resTime : Nat
  value : Nat
deriving DecidableEq

/-- Stable insertion by resolution time (earlier-resolving first; on a tie
the earlier-submitted mapper keeps its place). -/
def insertByTime (f : MapFut) : List MapFut → List MapFut
  | [] => [f]
  | g :: rest =>
    if g.resTime < f.resTime then
      g :: insertByTime f rest
    else
      f :: g :: rest

/-- Stable sort of the deferred mapper futures by resolution time. -/
def sortByTime : List MapFut → List MapFut
  | [] => []
  | f :: rest => insertByTime f (sortByTime rest)

/-- The order in which the accumulator updates run: available mapper
futures fold during the walk, in iteration order; deferred ones fold at
their resolution times. -/
def completionOrder (ms : List MapFut) : List Nat :=
  ((ms.filter (fun m => m.resTime == 0)).map (fun m => m.value))
    ++ ((sortByTime (ms.filter (fun m => m.resTime != 0))).map (fun m => m.value))

/-- `map_reduce(begin, end, mapper, initial, reduce)` (lines 1087-1111),
assuming every mapper future succeeds: the value of the returned future. -/
def map_reduce (ms : List MapFut) (initial : Nat) (reduce : Nat → Nat → Nat) : Nat :=
  (completionOrder ms).foldl reduce initial

/-- Modelled from the claim's words (not from the source): the left fold of
`reduce` over the mapped values in iteration order, the result the claim
asserts `map_reduce` computes. -/
def map_reduce_iteration_order (ms : List MapFut) (initial : Nat)
    (reduce : Nat → Nat → Nat) : Nat :=
  (ms.map (fun m => m.value)).foldl reduce initial

/-- A deliberately non-commutative reduction, to separate fold orders. -/
def shiftAdd (a v : Nat) : Nat := 2 * a + v

/-- Counterexample to claim C9 as stated: two mapper invocations, the first
returning a future that resolves at time 2 with value 10, the second an
already-available future with value 20.  The available value 20 is folded
during the call, the deferred value 10 afterwards, so with the
non-commutative `shiftAdd` the code yields `2*(2*0+20)+10 = 50`, while the
iteration-order left fold the claim asserts yields `2*(2*0+10)+20 = 40`. -/
theorem map_reduce_order_counterexample :
    map_reduce [⟨2, 10⟩, ⟨0, 20⟩] 0 shiftAdd = 50 ∧
    map_reduce_iteration_order [⟨2, 10⟩, ⟨0, 20⟩] 0 shiftAdd = 40 ∧
    map_reduce [⟨2, 10⟩, ⟨0, 20⟩] 0 shiftAdd
      ≠ map_reduce_iteration_order [⟨2, 10⟩, ⟨0, 20⟩] 0 shiftAdd := by
  refine ⟨rfl, rfl, ?_⟩
  decide

theorem filter_all_ready (ms : List MapFut) (h : ∀ m ∈ ms, m.resTime = 0) :
    ms.filter (fun m => m.resTime == 0) = ms
      ∧ ms.filter (fun m => m.resTime != 0) = [] := by
  induction ms with
  | nil => exact ⟨rfl, rfl⟩
  | cons m rest ih =>
    have hm : m.resTime = 0 := h m (List.mem_cons_self m rest)
    have hrest := ih (fun a ha => h a (List.mem_cons_of_mem _ ha))
    constructor
    · rw [List.filter_cons]
      simp [hm, hrest.1]
    · rw [List.filter_cons]
      simp [hm, hrest.2]

set_option maxRecDepth 100000 in
/-- Claim C9, amended: `map_reduce` with the explicit-fold signature folds
`reduce` over the mapped values in completion order (each fold continuation
is attached directly to its mapper future); when every mapper future is
already available at the call — as in the spec's scenario 7 — the
completion order is the iteration order, so the result is the left fold in
iteration order; in particular squares of 0..999 summed from 0 give
332833500. -/
theorem map_reduce_spec (ms : List MapFut) (initial : Nat)
    (reduce : Nat → Nat → Nat) (h : ∀ m ∈ ms, m.resTime = 0) :
    map_reduce ms initial reduce = map_reduce_iteration_order ms initial reduce ∧
    map_reduce ((List.range 1000).map (fun x => ⟨0, x * x⟩)) 0 (· + ·)
      = 332833500 := by
  constructor
  · rw [map_reduce, map_reduce_iteration_order, completionOrder,
      (filter_all_ready ms h).1, (filter_all_ready ms h).2]
    simp [sortByTime]
  · have hall : ∀ m ∈ (List.range 1000).map (fun x => (⟨0, x * x⟩ : MapFut)),
        m.resTime = 0 := by
      intro m hm
      rcases List.mem_map.mp hm with ⟨x, _, rfl⟩
      rfl
    rw [map_reduce, completionOrder,
      (filter_all_ready _ hall).1, (filter_all_ready _ hall).2]
    simp only [sortByTime, List.map_nil, List.append_nil]
    rfl

/-- Witness for the amended claim C9 at a concrete input: with both mapper
futures available, the non-commutative fold agrees with the iteration-order
fold, and the squares scenario evaluates to 332833500. -/
theorem map_reduce_spec_witness :
    map_reduce [⟨0, 10⟩, ⟨0, 20⟩] 0 shiftAdd
      = map_reduce_iteration_order [⟨0, 10⟩, ⟨0, 20⟩] 0 shiftAdd ∧
    map_reduce ((List.range 1000).map (fun x => ⟨0, x * x⟩)) 0 (· + ·)
      = 332833500 := by
  have h := map_reduce_spec [⟨0, 10⟩, ⟨0, 20⟩] 0 shiftAdd
    (by
      intro m hm
      rcases List.mem_cons.mp hm with h1 | h1
      · rw [h1]
      · rcases List.mem_cons.mp h1 with h2 | h2
        · rw [h2]
        · exact absurd h2 (List.not_mem_nil m))
  exact ⟨h.1, h.2⟩

/-! ### The ready fast paths (claim C2) -/

theorem pfeWalk_ready_inc (l : List SubF) (h : ∀ f ∈ l, f.resTime = 0) :
    ∀ (ex : Option Exn) (inc : List SubF), (pfeWalk l ex inc).2 = inc := by
  induction l with
  | nil => intro ex inc; rfl
  | cons f rest ih =>
    intro ex inc
    have hf : f.resTime = 0 := h f (List.mem_cons_self f rest)
    rw [pfeWalk, if_pos hf]
    exact ih (fun g hg => h g (List.mem_cons_of_mem _ hg)) _ _

theorem repeatGo_ready_noPreempt (pre : Nat → Bool) (hpre : ∀ i, pre i = false) :
    ∀ (trace : List (ARes Bool)) (inv al burst : Nat) (bursts : List Nat)
      (r : RepeatRes), (∀ a ∈ trace, a.ready = true) →
      repeatGo pre trace inv al burst bursts true = some r →
      r.allocs = al ∧ r.immediate = true := by
  intro trace
  induction trace with
  | nil => intro inv al burst bursts r _ h; simp [repeatGo] at h
  | cons a rest ih =>
    intro inv al burst bursts r hready h
    cases a with
    | throws e =>
      rw [repeatGo] at h
      cases h
      exact ⟨rfl, rfl⟩
    | ret rt res =>
      have hrt : rt = 0 := by
        have := hready _ (List.mem_cons_self _ _)
        simpa [ARes.ready] using this
      subst hrt
      cases res with
      | error e =>
        rw [repeatGo] at h
        simp only [reduceIte] at h
        cases h
        exact ⟨rfl, rfl⟩
      | ok v =>
        cases v with
        | true =>
          rw [repeatGo] at h
          simp only [reduceIte] at h
          cases h
          exact ⟨rfl, rfl⟩
        | false =>
          rw [repeatGo, hpre inv] at h
          simp only [reduceIte] at h
          exact ih _ _ _ _ _ (fun b hb => hready b (List.mem_cons_of_mem _ hb)) h

theorem ruvGo_ready_noPreempt (pre : Nat → Bool) (hpre : ∀ i, pre i = false) :
    ∀ (trace : List (ARes (Option Nat))) (inv al burst : Nat) (bursts : List Nat)
      (r : RuvRes), (∀ a ∈ trace, a.ready = true) →
      ruvGo pre trace inv al burst bursts true = some r →
      r.allocs = al ∧ r.immediate = true := by
  intro trace
  induction trace with
  | nil => intro inv al burst bursts r _ h; simp [ruvGo] at h
  | cons a rest ih =>
    intro inv al burst bursts r hready h
    cases a with
    | throws e =>
      rw [ruvGo] at h
      cases h
      exact ⟨rfl, rfl⟩
    | ret rt res =>
      have hrt : rt = 0 := by
        have := hready _ (List.mem_cons_self _ _)
        simpa [ARes.ready] using this
      subst hrt
      cases res with
      | error e =>
        rw [ruvGo] at h
        simp only [reduceIte] at h
        cases h
        exact ⟨rfl, rfl⟩
      | ok v =>
        cases v with
        | some x =>
          rw [ruvGo] at h
          simp only [reduceIte] at h
          cases h
          exact ⟨rfl, rfl⟩
        | none =>
          rw [ruvGo, hpre inv] at h
          simp only [reduceIte] at h
          exact ih _ _ _ _ _ (fun b hb => hready b (List.mem_cons_of_mem _ hb)) h

theorem doUntilGo_ready_noPreempt (pre : Nat → Bool) (hpre : ∀ i, pre i = false) :
    ∀ (stops : List Bool) (acts : List SubF) (se inv al burst : Nat)
      (bursts : List Nat) (r : DURes), (∀ a ∈ acts, a.resTime = 0) →
      doUntilGo pre stops acts se inv al burst bursts true = some r →
      r.allocs = al ∧ r.immediate = true := by
  intro stops
  induction stops with
  | nil => intro acts se inv al burst bursts r _ h; simp [doUntilGo] at h
  | cons s srest ih =>
    intro acts se inv al burst bursts r hready h
    cases s with
    | true =>
      rw [doUntilGo] at h
      cases h
      exact ⟨rfl, rfl⟩
    | false =>
      rcases acts with _ | ⟨⟨rt, ex⟩, arest⟩
      · simp [doUntilGo] at h
      · have hrt : rt = 0 := hready _ (List.mem_cons_self _ _)
        subst hrt
        cases ex with
        | some e =>
          rw [doUntilGo] at h
          simp only [reduceIte] at h
          cases h
          exact ⟨rfl, rfl⟩
        | none =>
          rw [doUntilGo, hpre inv] at h
          simp only [reduceIte] at h
          exact ih _ _ _ _ _ _ _ (fun b hb => hready b (List.mem_cons_of_mem _ hb)) h

theorem dfeGo_ready_noPreempt (pre : Nat → Bool) (hpre : ∀ i, pre i = false) :
    ∀ (acts : List SubF) (inv al : Nat), (∀ a ∈ acts, a.resTime = 0) →
      (dfeGo pre acts inv al true).allocs = al ∧
      (dfeGo pre acts inv al true).immediate = true := by
  intro acts
  induction acts with
  | nil => intro inv al _; exact ⟨rfl, rfl⟩
  | cons a rest ih =>
    intro inv al hready
    rcases a with ⟨rt, ex⟩
    have hrt : rt = 0 := hready _ (List.mem_cons_self _ _)
    subst hrt
    rw [dfeGo, hpre inv]
    by_cases hrest : rest.isEmpty
    · cases ex <;> simp [hrest]
    · simp only [hrest, Bool.false_eq_true, reduceIte, ne_eq, not_true_eq_false,
        Bool.or_self, decide_False, Bool.false_or]
      cases ex with
      | some e => exact ⟨rfl, rfl⟩
      | none => exact ih _ _ (fun b hb => hready b (List.mem_cons_of_mem _ hb))

/-- Counterexample to claim C2 as stated: `repeat` with an action whose two
futures are both available at the time they are obtained (`no`, then `yes`)
but with `need_preempt()` true at the inter-iteration check — the loop
allocates a heap `repeater`, schedules it, and returns a future that is not
yet ready, so availability of every sub-future alone does not give the
allocation-free immediate path. -/
theorem fast_path_counterexample :
    ∃ r : RepeatRes,
      repeat_model (fun _ => true) [.ret 0 (.ok false), .ret 0 (.ok true)] = some r ∧
      (∀ a ∈ [ARes.ret 0 (Res.ok false), ARes.ret 0 (Res.ok true)], a.ready = true) ∧
      r.allocs = 1 ∧ r.immediate = false := by
  exact ⟨⟨.ok (), 2, 1, false, [1, 1]⟩, rfl, by decide, rfl, rfl⟩

/-- Claim C2, amended: when every sub-future a combinator obtains is already
available, the returned future is immediately ready and no heap allocation
for internal combinator state is performed — unconditionally for
`parallel_for_each`, `when_all`, `when_all_succeed` and `with_timeout`, and
for the loop combinators (`repeat`, `repeat_until_value`, `do_until`,
`do_for_each`) provided `need_preempt()` does not trip during the
synchronous run (a preemption trip allocates the loop's heap state and
returns a not-yet-ready future even when every sub-future was available,
as the counterexample shows). -/
theorem fast_path_spec :
    (∀ subs : List SubF, (∀ f ∈ subs, f.resTime = 0) →
      (parallel_for_each subs).allocs = 0 ∧ (parallel_for_each subs).time = 0) ∧
    (∀ fs : List WFut, (∀ f ∈ fs, f.resTime = 0) →
      (when_all fs).allocs = 0 ∧ (when_all fs).time = 0) ∧
    (∀ fs : List WFut, (∀ f ∈ fs, f.resTime = 0) →
      (when_all_succeed fs).allocs = 0 ∧ (when_all_succeed fs).time = 0) ∧
    (∀ (d : Nat) (fe : Exn) (f : SubF), f.resTime = 0 →
      (with_timeout d fe f).allocs = 0 ∧ (with_timeout d fe f).res.resTime = 0) ∧
    (∀ (pre : Nat → Bool) (trace : List (ARes Bool)) (r : RepeatRes),
      (∀ i, pre i = false) → (∀ a ∈ trace, a.ready = true) →
      repeat_model pre trace = some r → r.allocs = 0 ∧ r.immediate = true) ∧
    (∀ (pre : Nat → Bool) (trace : List (ARes (Option Nat))) (r : RuvRes),
      (∀ i, pre i = false) → (∀ a ∈ trace, a.ready = true) →
      repeat_until_value pre trace = some r → r.allocs = 0 ∧ r.immediate = true) ∧
    (∀ (pre : Nat → Bool) (stops : List Bool) (acts : List SubF) (r : DURes),
      (∀ i, pre i = false) → (∀ a ∈ acts, a.resTime = 0) →
      do_until pre stops acts = some r → r.allocs = 0 ∧ r.immediate = true) ∧
    (∀ (pre : Nat → Bool) (acts : List SubF),
      (∀ i, pre i = false) → (∀ a ∈ acts, a.resTime = 0) →
      (do_for_each pre acts).allocs = 0 ∧ (do_for_each pre acts).immediate = true) := by
  refine ⟨?_, ?_, ?_, ?_, ?_, ?_, ?_, ?_⟩
  · intro subs h
    have hinc : (pfeWalk subs none []).2 = [] := pfeWalk_ready_inc subs h none []
    constructor <;> simp [parallel_for_each, hinc]
  · intro fs h
    have hall : fs.all (fun f => f.resTime = 0) = true := by
      rw [List.all_eq_true]
      intro f hf
      simpa using h f hf
    constructor <;> simp [when_all, hall]
  · intro fs h
    have hall : fs.all (fun f => f.resTime = 0) = true := by
      rw [List.all_eq_true]
      intro f hf
      simpa using h f hf
    constructor <;> simp [when_all_succeed, hall]
  · intro d fe f h0
    rw [with_timeout, if_pos h0]
    exact ⟨rfl, h0⟩
  · intro pre trace r hpre hready h
    exact repeatGo_ready_noPreempt pre hpre trace 0 0 0 [] r hready h
  · intro pre trace r hpre hready h
    exact ruvGo_ready_noPreempt pre hpre trace 0 0 0 [] r hready h
  · intro pre stops acts r hpre hready h
    exact doUntilGo_ready_noPreempt pre hpre stops acts 0 0 0 0 [] r hready h
  · intro pre acts hpre hready
    exact dfeGo_ready_noPreempt pre hpre acts 0 0 hready

/-- Witness for the amended claim C2 at concrete inputs: an all-ready
`parallel_for_each` and an all-ready, never-preempted `repeat` both return
immediately with no heap allocation. -/
theorem fast_path_spec_witness :
    ((parallel_for_each [⟨0, none⟩, ⟨0, none⟩]).allocs = 0 ∧
      (parallel_for_each [⟨0, none⟩, ⟨0, none⟩]).time = 0) ∧
    ((RepeatRes.mk (.ok ()) 2 0 true [2]).allocs = 0 ∧
      (RepeatRes.mk (.ok ()) 2 0 true [2]).immediate = true) := by
  constructor
  · exact fast_path_spec.1 [⟨0, none⟩, ⟨0, none⟩] (by decide)
  · exact fast_path_spec.2.2.2.2.1 (fun _ => false)
      [.ret 0 (.ok false), .ret 0 (.ok true)] ⟨.ok (), 2, 0, true, [2]⟩
      (fun _ => rfl) (by decide) rfl

end Seastar
